import Mathlib

/-!
A verification development for the virtual-file / streaming-cache layer of
the `asrec-telegram` repository.

The Python sources embedded here (shallowly, as pure Lean functions over
`Nat`/`Int` and lists) are:

* `src/ioutils/wrapped_fileio.py` — `FileProxy` (seek/tell contract),
  `CombinedFile` (concatenation of parts);
* `src/ioutils/cached_callback_fileio.py` — `CachedCustomFile`
  (budgeted chunk cache in front of a reader callback);
* `src/asrec_telegram/bot/media.py` — `MediaReader`
  (per-connection active-stream bookkeeping and bounded retry).

Bytes are modelled as `Nat` values, byte strings as `List Nat`.
Python exceptions are modelled with `Except Err`.

The file is organised as definitions first (the embedding of the source),
then the lemmas and claim theorems.
-/

namespace ASRec

/-- The error kinds raised by the layer (Python exception classes collapsed
to the role they play: `ValueError` on closed files ↦ `closedResource`,
`ValueError`/`OSError` on bad arguments ↦ `invalidArgument`,
`RuntimeError` on short part reads ↦ `dataCorruption`,
`AssertionError` on a second cache miss ↦ `protocolViolation`,
`IOError` after exhausted retries ↦ `unavailableBackend`).
`internalAssertion` marks paths the Python code would reach only through a
broken internal invariant (or by diverging); theorems show the relevant
paths never produce it. -/
inductive Err where
  | invalidArgument
  | closedResource
  | dataCorruption
  | protocolViolation
  | streamExhausted
  | unavailableBackend
  | internalAssertion
  deriving Repr, DecidableEq

/-- `whence` argument of `FileProxy.seek` (`io.SEEK_SET/CUR/END`). -/
inductive Whence where
  | set
  | cur
  | fromEnd
  deriving Repr, DecidableEq

/-! ## FileProxy: the shared seek/tell contract (`wrapped_fileio.py`, lines 32-62)

`seek` and `tell` are defined on `FileProxy` and inherited unchanged by
`PartedFile`, `CombinedFile` and `CachedCustomFile`.  They consult only the
`closed` flag, `_pos` and `_size` — no backing storage appears in their
state, mirroring that the Python methods touch no storage. -/

/-- The state `FileProxy.seek`/`tell` operate on: the `closed` flag,
`_size` and `_pos`.  Positions are `Int` because Python `seek` arguments
are arbitrary integers (negativity is checked dynamically). -/
structure FPState where
  closed : Bool
  size : Int
  pos : Int
  deriving Repr, DecidableEq

/-- `FileProxy.tell` (lines 32-36): raises on a closed file, else returns
`_pos`. -/
def fpTell (st : FPState) : Except Err Int :=
  if st.closed then .error .closedResource else .ok st.pos

/-- `FileProxy.seek` (lines 38-62): raises on a closed file, computes the
target position from `whence`, raises `OSError` when it is negative, and
otherwise stores and returns it. -/
def fpSeek (st : FPState) (offset : Int) (whence : Whence) : Except Err FPState :=
  if st.closed then .error .closedResource
  else
    let newPos : Int :=
      match whence with
      | .set => offset
      | .cur => st.pos + offset
      | .fromEnd => st.size + offset
    if newPos < 0 then .error .invalidArgument
    else .ok { st with pos := newPos }

/-- Python exception semantics for a failed `seek`: the object is left
unchanged (the `raise` happens before `self._pos` is assigned). -/
def fpSeekOrKeep (st : FPState) (offset : Int) (whence : Whence) : FPState :=
  match fpSeek st offset whence with
  | .ok st' => st'
  | .error _ => st

/-- The target position `seek(offset, whence)` computes before the
negativity check (lines 49-56 of `wrapped_fileio.py`). -/
def seekTarget (st : FPState) (offset : Int) (whence : Whence) : Int :=
  match whence with
  | .set => offset
  | .cur => st.pos + offset
  | .fromEnd => st.size + offset

/-! ## Shared list utilities

`bisect.bisect_right` and `list.insert`, specialised to the way the two
cache/concatenation classes use them.  The Python code only ever calls
`bisect_right` on lists it keeps sorted in non-decreasing order; on such a
list `bisect_right l x` is the length of the longest prefix of elements
`≤ x`, which is how we define it. -/

/-- `bisect.bisect_right l x` for a list sorted in non-decreasing order:
the number of leading elements `≤ x`, i.e. the rightmost insertion point
for `x` that keeps the list sorted. -/
def bisectRight (l : List Nat) (x : Nat) : Nat :=
  (l.takeWhile (fun y => decide (y ≤ x))).length

/-- Python `list.insert(i, a)`: insert before index `i`, clamping `i` to
the list length. -/
def pyInsert (i : Nat) (a : α) : List α → List α
  | [] => [a]
  | b :: l =>
    match i with
    | 0 => a :: b :: l
    | i + 1 => b :: pyInsert i a l

/-! ## CombinedFile (`wrapped_fileio.py`, lines 173-247)

A part of a `CombinedFile` is used through `seek(local_offset)` followed by
`read(want)`; we embed a part as its declared size together with that
seek+read capability as one function `readFn local_offset want ↦ bytes`.
A part backed by a fixed byte string (an in-memory file) has
`readFn loc want = (content.drop loc).take want`. -/

/-- A part of a `CombinedFile`: its size (as reported by
`part.seek(0, END); part.tell()` in `__init__`) and its seek+read
behaviour. -/
structure CFPart where
  size : Nat
  readFn : Nat → Nat → List Nat

instance : Inhabited CFPart := ⟨⟨0, fun _ _ => []⟩⟩

/-- A part backed by a fixed byte string, reading pure slices
(the behaviour of `io.BytesIO`-like parts). -/
def purePart (content : List Nat) : CFPart :=
  ⟨content.length, fun loc want => (content.drop loc).take want⟩

/-- `itertools.accumulate(sizes, initial=acc)`: the running partial sums,
starting with `acc` itself. -/
def pyAccumulate (acc : Nat) : List Nat → List Nat
  | [] => [acc]
  | s :: ss => acc :: pyAccumulate (acc + s) ss

/-- The state of a `CombinedFile`.  `close()` clears `parts` (the sizes and
cumulative offsets survive, exactly as in the source, where only
`self._parts` is emptied); `closed` is `parts.isEmpty`. -/
structure CFState where
  parts : List CFPart
  partSizes : List Nat
  cumOffsets : List Nat
  size : Nat
  pos : Nat
  deriving Inhabited

/-- `CombinedFile.__init__` (lines 179-195): record the parts, measure
their sizes, prefix-sum them (`initial=0`), and take the last cumulative
offset as the total size.  The readable/seekable validation always passes
for our parts. -/
def mkCombinedFile (parts : List CFPart) : CFState :=
  let sizes := parts.map (·.size)
  let cum := pyAccumulate 0 sizes
  { parts := parts, partSizes := sizes, cumOffsets := cum,
    size := cum.getLastD 0, pos := 0 }

/-- `CombinedFile.closed` (lines 245-247): `not self._parts`. -/
def cfClosed (st : CFState) : Bool := st.parts.isEmpty

/-- `CombinedFile._find_part` (lines 197-205): rightmost bisection into the
cumulative offsets, minus one; `None` when the index is out of the parts
range. -/
def findPart (cum : List Nat) (nparts : Nat) (offset : Nat) : Option (Nat × Nat) :=
  let partIdx : Int := (bisectRight cum offset : Int) - 1
  if 0 ≤ partIdx ∧ partIdx < nparts then
    some (partIdx.toNat, offset - cum.getD partIdx.toNat 0)
  else
    none

/-- The loop body of `CombinedFile.read` (lines 215-231), with the number
of part-read invocations counted alongside the result.  Python's `while`
is rendered with fuel; each successful iteration consumes
`read_from_this_part ≥ 1` bytes of the request, so fuel equal to the
requested byte count suffices, and exhausted fuel (`internalAssertion`)
models the divergence that a zero-progress iteration would be.  The two
`assert` statements in the source are also rendered as
`internalAssertion`. -/
def cfReadLoop (parts : List CFPart) (sizes cum : List Nat) :
    Nat → Nat → Nat → Except Err (List Nat × Nat) × Nat
  | 0, btr, pos => (if btr = 0 then .ok ([], pos) else .error .internalAssertion, 0)
  | _ + 1, 0, pos => (.ok ([], pos), 0)
  | fuel + 1, btr + 1, pos =>
    match findPart cum parts.length pos with
    | none => (.error .internalAssertion, 0)
    | some (i, loc) =>
      let want := min (btr + 1) (sizes.getD i 0 - loc)
      if want = 0 then (.error .internalAssertion, 0)
      else
        let chunk := (parts.getD i default).readFn loc want
        if chunk.length ≠ want then (.error .dataCorruption, 1)
        else
          match cfReadLoop parts sizes cum fuel (btr + 1 - want) (pos + want) with
          | (.ok (rest, p), calls) => (.ok (chunk ++ rest, p), calls + 1)
          | (.error e, calls) => (.error e, calls + 1)

/-- `CombinedFile.read` (lines 207-233): the `super().read` checks (closed
file, `size < -1`), the early return at end of file, the clamping of the
request, and the chunk loop.  Returns the result together with the number
of part-read invocations made. -/
def cfRead (st : CFState) (n : Int) : Except Err (List Nat × CFState) × Nat :=
  if cfClosed st then (.error .closedResource, 0)
  else if n < -1 then (.error .invalidArgument, 0)
  else if st.size ≤ st.pos then (.ok ([], st), 0)
  else
    let btr := if n = -1 then st.size - st.pos else min n.toNat (st.size - st.pos)
    match cfReadLoop st.parts st.partSizes st.cumOffsets btr btr st.pos with
    | (.ok (bs, p), calls) => (.ok (bs, { st with pos := p }), calls)
    | (.error e, calls) => (.error e, calls)

/-- `seek` on a `CombinedFile` (inherited from `FileProxy`): same
computation as `fpSeek`, on the `CFState` carrier. -/
def cfSeek (st : CFState) (offset : Int) (whence : Whence) : Except Err CFState :=
  if cfClosed st then .error .closedResource
  else
    let newPos : Int :=
      match whence with
      | .set => offset
      | .cur => (st.pos : Int) + offset
      | .fromEnd => (st.size : Int) + offset
    if newPos < 0 then .error .invalidArgument
    else .ok { st with pos := newPos.toNat }

/-- `tell` on a `CombinedFile` (inherited from `FileProxy`). -/
def cfTell (st : CFState) : Except Err Nat :=
  if cfClosed st then .error .closedResource else .ok st.pos

/-- The index/local-offset pair `_find_part` is meant to produce, computed
structurally over the part sizes (the reference function used to state its
correctness). -/
def findPartSpecFn (sizes : List Nat) (pos : Nat) : Nat × Nat :=
  match sizes with
  | [] => (0, pos)
  | s :: ss =>
    if pos < s then (0, pos)
    else ((findPartSpecFn ss (pos - s)).1 + 1, (findPartSpecFn ss (pos - s)).2)

/-- Every part delivers exactly the requested bytes for every in-range
sub-read (what well-behaved backing storage guarantees). -/
def FullDelivery (parts : List CFPart) : Prop :=
  ∀ i loc want, i < parts.length → 1 ≤ want →
    loc + want ≤ (parts.getD i default).size →
    ((parts.getD i default).readFn loc want).length = want

/-! ## CachedCustomFile (`cached_callback_fileio.py`)

The reader callback is modelled as a pure function
`reader : Nat → Nat × List Nat` from the requested offset to
`(read_offset, data)`.  The state carries three ghost fields (`calls`,
`insertLog`, `evictLog`) that record what happened without influencing any
behaviour; they let theorems talk about "number of callback invocations"
and "insertion order versus eviction order". -/

/-- `self._remaining_buffer_size`: a Python float that is either the
default `inf` or stays an ordinary (possibly negative) number under the
subtractions and additions the class performs. -/
inductive Budget where
  | inf
  | fin (z : Int)
  deriving Repr, DecidableEq

/-- `b - n` on the budget (`inf - n = inf`, as for Python floats). -/
def Budget.sub (b : Budget) (n : Nat) : Budget :=
  match b with
  | .inf => .inf
  | .fin z => .fin (z - n)

/-- `b + n` on the budget. -/
def Budget.add (b : Budget) (n : Nat) : Budget :=
  match b with
  | .inf => .inf
  | .fin z => .fin (z + n)

/-- `b < 0` on the budget (`inf < 0` is false). -/
def Budget.isNeg (b : Budget) : Bool :=
  match b with
  | .inf => false
  | .fin z => decide (z < 0)

/-- The mutable state of a `CachedCustomFile` (lines 42-47), plus ghost
instrumentation. -/
structure CCState where
  size : Nat
  pos : Nat
  remaining : Budget
  offsets : List Nat
  chunks : List (List Nat)
  /-- Ghost: number of reader invocations performed so far. -/
  calls : Nat
  /-- Ghost: start offsets of fetched chunks, in insertion order. -/
  insertLog : List Nat
  /-- Ghost: start offsets of evicted chunks, in eviction order. -/
  evictLog : List Nat
  deriving Repr, DecidableEq

/-- `CachedCustomFile.__init__` (lines 42-47). -/
def mkCachedFile (size : Nat) (bufferSize : Budget) : CCState :=
  { size := size, pos := 0, remaining := bufferSize, offsets := [], chunks := [],
    calls := 0, insertLog := [], evictLog := [] }

/-- The cache entry the hit test of `_read_from_single_chunk` inspects
(line 79): the resident entry with the greatest start offset `≤ offset` —
on ties, the last such entry in the list.  `none` is the Python case
`idx = -1`. -/
def locateChunk (offsets : List Nat) (chunks : List (List Nat)) (offset : Nat) :
    Option (Nat × List Nat) :=
  match bisectRight offsets offset with
  | 0 => none
  | i + 1 => some (offsets.getD i 0, chunks.getD i [])

/-- The cache-hit test and slice (lines 82-86): when the located entry
contains `offset`, return up to `size` bytes of it starting there. -/
def tryHit (offsets : List Nat) (chunks : List (List Nat)) (offset size : Nat) :
    Option (List Nat) :=
  match locateChunk offsets chunks offset with
  | none => none
  | some (co, cd) =>
    if co ≤ offset ∧ offset < co + cd.length then
      some ((cd.drop (offset - co)).take size)
    else none

/-- The eviction loop (lines 96-99): while the remaining budget is
negative and the cache is non-empty, pop the head of both parallel lists
and credit its size back.  Returns the new budget, lists, and the eviction
log extended with the evicted offsets in order. -/
def evictLoop (remaining : Budget) (offsets : List Nat) (chunks : List (List Nat))
    (elog : List Nat) : Budget × List Nat × List (List Nat) × List Nat :=
  match offsets, chunks with
  | o :: os, c :: cs =>
    if remaining.isNeg then
      evictLoop (remaining.add c.length) os cs (elog ++ [o])
    else (remaining, o :: os, c :: cs, elog)
  | os, cs => (remaining, os, cs, elog)

/-- `CachedCustomFile._read_from_single_chunk` (lines 72-107).  The
bounded recursion (`is_retrying`) is unrolled: a first hit test, then on a
miss one fetch-evict-insert step (lines 91-104) and a second hit test,
whose failure is the `assert not is_retrying` failure
(`protocolViolation`). -/
def readSingleChunk (reader : Nat → Nat × List Nat) (st : CCState) (size : Nat) :
    Except Err (List Nat × CCState) :=
  match tryHit st.offsets st.chunks st.pos size with
  | some b => .ok (b, st)
  | none =>
    let (readOffset, readData) := reader st.pos
    let remaining1 := st.remaining.sub readData.length
    let (remaining2, offsets2, chunks2, elog2) :=
      evictLoop remaining1 st.offsets st.chunks st.evictLog
    let insertIdx := bisectRight offsets2 readOffset
    let st' : CCState :=
      { st with remaining := remaining2,
                offsets := pyInsert insertIdx readOffset offsets2,
                chunks := pyInsert insertIdx readData chunks2,
                calls := st.calls + 1,
                insertLog := st.insertLog ++ [readOffset],
                evictLog := elog2 }
    match tryHit st'.offsets st'.chunks st'.pos size with
    | some b => .ok (b, st')
    | none => .error .protocolViolation

/-- The clamped byte count `bytes_to_read` computed on line 62 of
`cached_callback_fileio.py`. -/
def ccBtr (st : CCState) (n : Int) : Nat :=
  if n = -1 then st.size - st.pos else min n.toNat (st.size - st.pos)

/-- The `while bytes_to_read > 0` loop of `CachedCustomFile.read`
(lines 63-69), advancing `_pos` after each sub-read.  Fuel equal to the
byte count suffices because every hit delivers at least one byte;
exhausted fuel (`internalAssertion`) models the divergence a zero-byte
sub-read would be. -/
def ccReadLoop (reader : Nat → Nat × List Nat) :
    Nat → CCState → Nat → Except Err (List Nat × CCState)
  | 0, st, btr => if btr = 0 then .ok ([], st) else .error .internalAssertion
  | fuel + 1, st, btr =>
    if btr = 0 then .ok ([], st)
    else
      match readSingleChunk reader st btr with
      | .error e => .error e
      | .ok (chunk, st1) =>
        match ccReadLoop reader fuel { st1 with pos := st1.pos + chunk.length }
            (btr - chunk.length) with
        | .ok (rest, st') => .ok (chunk ++ rest, st')
        | .error e => .error e

/-- `CachedCustomFile.read` (lines 49-70): the inherited argument check,
the end-of-file early return, the clamping of the request, and the chunk
loop.  (A `CachedCustomFile` is never closed in the scenarios modelled
here, so the inherited closed-file check is omitted.) -/
def ccRead (reader : Nat → Nat × List Nat) (st : CCState) (n : Int) :
    Except Err (List Nat × CCState) :=
  if n < -1 then .error .invalidArgument
  else if st.size ≤ st.pos then .ok ([], st)
  else
    ccReadLoop reader (ccBtr st n) st (ccBtr st n)

/-- `seek` on a `CachedCustomFile` (inherited from `FileProxy`). -/
def ccSeek (st : CCState) (offset : Int) (whence : Whence) : Except Err CCState :=
  let newPos : Int :=
    match whence with
    | .set => offset
    | .cur => (st.pos : Int) + offset
    | .fromEnd => (st.size : Int) + offset
  if newPos < 0 then .error .invalidArgument
  else .ok { st with pos := newPos.toNat }

/-- A seek or read operation on a `CachedCustomFile`. -/
inductive FileOp where
  | seek (offset : Int) (whence : Whence)
  | read (n : Int)
  deriving Repr, DecidableEq

/-- Run a sequence of operations on a `CachedCustomFile`; an exception
aborts the run. -/
def ccExec (reader : Nat → Nat × List Nat) : CCState → List FileOp → Except Err CCState
  | st, [] => .ok st
  | st, op :: ops =>
    match op with
    | .seek off w =>
      match ccSeek st off w with
      | .ok st' => ccExec reader st' ops
      | .error e => .error e
    | .read n =>
      match ccRead reader st n with
      | .ok (_, st') => ccExec reader st' ops
      | .error e => .error e

/-- The documented callback contract (lines 24-34):
`read_offset <= offset < read_offset + len(data)` for every requested
offset. -/
def ReaderContract (reader : Nat → Nat × List Nat) : Prop :=
  ∀ o, (reader o).1 ≤ o ∧ o < (reader o).1 + (reader o).2.length

/-! ## MediaReader (`media.py`): active-stream bookkeeping and retry -/

/-- The per-connection stream bookkeeping of `MediaReader`
(`_client_active_aiter` for one `Client`), together with the identities of
the streams created so far.  Streams are numbered by creation; a stream is
*live* — holding the backend's stream slot (`Client.get_file_semaphore`) —
once it has been pulled from (`anext`) and not yet closed (`aclose` or
exhaustion). -/
structure ConnState where
  nextId : Nat
  started : List Nat
  closedStreams : List Nat
  active : Option Nat
  deriving Repr, DecidableEq

/-- A stream currently consuming the backend's stream slot. -/
def ConnState.live (st : ConnState) (s : Nat) : Prop :=
  s ∈ st.started ∧ s ∉ st.closedStreams

/-- The atomic transitions of the per-connection fetch state machine, as
the code performs them (each constructor is one line of `media.py`):

* `createStream` — `self.client.stream_media(...)` allocates a fresh,
  not-yet-started async generator (line 73);
* `closeActive` — `await old_ait.aclose()` inside `_replace_aiter`
  (lines 53-55);
* `installFresh` — `self._client_active_aiter[self.client] = ait`
  (line 56) with a never-started generator; in `_replace_aiter` this runs
  only after the previous active stream was closed, which is the stated
  precondition;
* `installNone` — the same assignment in the discard path
  (`_replace_aiter(None)`, line 111), same precondition;
* `pullActive` — `await anext(self._aiter)` (line 80), which under the
  client lock is only ever applied to the installed active stream, and
  makes it live. -/
inductive ConnStep : ConnState → ConnState → Prop where
  | createStream (st : ConnState) :
      ConnStep st { st with nextId := st.nextId + 1 }
  | closeActive (st : ConnState) (a : Nat) :
      st.active = some a →
      ConnStep st { st with closedStreams := a :: st.closedStreams }
  | installFresh (st : ConnState) (n : Nat) :
      n < st.nextId → n ∉ st.started →
      (∀ a, st.active = some a → a ∈ st.closedStreams) →
      ConnStep st { st with active := some n }
  | installNone (st : ConnState) :
      (∀ a, st.active = some a → a ∈ st.closedStreams) →
      ConnStep st { st with active := none }
  | pullActive (st : ConnState) (a : Nat) :
      st.active = some a →
      ConnStep st { st with started := a :: st.started }

/-- The connection states reachable from the initial bookkeeping
(`defaultdict(lambda: None)`: no streams, no active entry). -/
inductive ConnReachable : ConnState → Prop where
  | init : ConnReachable ⟨0, [], [], none⟩
  | step {st st' : ConnState} : ConnReachable st → ConnStep st st' → ConnReachable st'

/-- `MAX_RETRY` (line 32 of `media.py`). -/
def MAX_RETRY : Nat := 3

/-- The retry loop of `MediaReader.read_threadsafe` (lines 99-118).
`attempt i` is the outcome of submitting `read_coroutine` to the event
loop on iteration `i` (an exception or a `(read_offset, data)` result);
`discard i` tells whether the subsequent discard of the broken stream
(`_replace_aiter(None)`) completed in time (`False` is the `TimeoutError`
path that breaks out of the loop).  `r` is the number of loop iterations
left (`MAX_RETRY + 1 - i`).  Returns the result together with the number
of fetch attempts made and the number of discards performed. -/
def rtLoop (attempt : Nat → Except Unit (Nat × List Nat)) (discard : Nat → Bool) :
    Nat → Nat → Except Err (Nat × List Nat) × Nat × Nat
  | _, 0 => (.error .unavailableBackend, 0, 0)
  | i, r + 1 =>
    match attempt i with
    | .ok v => (.ok v, 1, 0)
    | .error _ =>
      if r = 0 then (.error .unavailableBackend, 1, 0)
      else if discard i then
        match rtLoop attempt discard (i + 1) r with
        | (res, a, d) => (res, a + 1, d + 1)
      else (.error .unavailableBackend, 1, 0)

/-- `MediaReader.read_threadsafe`: the retry loop entered at iteration 0
with `MAX_RETRY + 1` iterations available (`for i in range(MAX_RETRY + 1)`),
failing with `IOError` (`unavailableBackend`) when no iteration
returned. -/
def readThreadsafe (attempt : Nat → Except Unit (Nat × List Nat))
    (discard : Nat → Bool) : Except Err (Nat × List Nat) × Nat × Nat :=
  rtLoop attempt discard 0 (MAX_RETRY + 1)

/-! ## Concrete inputs used by counterexample theorems -/

/-- A contract-honoring reader used to refute the FIFO-by-insertion
claim: chunks of five bytes at offsets 10, 0 and 20. -/
def readerA (o : Nat) : Nat × List Nat :=
  if o < 5 then (0, [0, 1, 2, 3, 4])
  else if o < 10 then (o, [7])
  else if o < 15 then (10, [10, 11, 12, 13, 14])
  else if o < 20 then (o, [7])
  else if o < 25 then (20, [20, 21, 22, 23, 24])
  else (o, [7])

/-- A contract-honoring reader whose chunks overlap: a one-byte chunk at
its offset for requests at 5 or beyond 9, and the ten-byte chunk `[0,10)`
for all other requests. -/
def readerB (o : Nat) : Nat × List Nat :=
  if o = 5 then (5, [105])
  else if o < 10 then (0, [100, 101, 102, 103, 104, 105, 106, 107, 108, 109])
  else (o, [7])

/-- Like `readerB`, but requests at or beyond 8 get a fresh aligned chunk
at exactly the requested offset, so every retry succeeds. -/
def readerC (o : Nat) : Nat × List Nat :=
  if o = 5 then (5, [105])
  else if o < 8 then (0, [100, 101, 102, 103, 104, 105, 106, 107, 108, 109])
  else (o, [7, 8])

/-! ## Lemmas: `bisectRight` and `pyInsert` -/

theorem bisectRight_le_length (l : List Nat) (x : Nat) :
    bisectRight l x ≤ l.length := by
  induction l with
  | nil => simp [bisectRight]
  | cons a l ih =>
    simp only [bisectRight, List.takeWhile] at ih ⊢
    cases decide (a ≤ x) <;> simp <;> omega

theorem bisectRight_cons (a : Nat) (l : List Nat) (x : Nat) :
    bisectRight (a :: l) x = if a ≤ x then bisectRight l x + 1 else 0 := by
  by_cases h : a ≤ x <;> simp [bisectRight, List.takeWhile, h]

/-- On a sorted list, an index is below the bisection point iff its
element is `≤ x`. -/
theorem bisectRight_lt_iff {l : List Nat} (hs : l.Sorted (· ≤ ·)) (x : Nat)
    (i : Nat) (hi : i < l.length) :
    i < bisectRight l x ↔ l[i] ≤ x := by
  induction l generalizing i with
  | nil => simp at hi
  | cons a l ih =>
    rcases List.sorted_cons.mp hs with ⟨ha, hl⟩
    rw [bisectRight_cons]
    by_cases hax : a ≤ x
    · cases i with
      | zero => simpa [hax]
      | succ i =>
        have hi' : i < l.length := by simpa using hi
        simp only [hax, if_true, List.getElem_cons_succ]
        constructor
        · intro h; exact (ih hl i hi').mp (by omega)
        · intro h; have := (ih hl i hi').mpr h; omega
    · cases i with
      | zero => simpa [hax]
      | succ i =>
        have hi' : i < l.length := by simpa using hi
        have : a ≤ l[i] := ha _ (l.getElem_mem hi')
        simp only [hax, if_false, List.getElem_cons_succ]
        constructor
        · omega
        · intro h; exact absurd (le_trans this h) hax

theorem pyInsert_perm (i : Nat) (a : α) (l : List α) :
    (pyInsert i a l).Perm (a :: l) := by
  induction l generalizing i with
  | nil => simp [pyInsert]
  | cons b l ih =>
    cases i with
    | zero => simp [pyInsert]
    | succ i =>
      exact List.Perm.trans ((ih i).cons b) (List.Perm.swap a b l)

theorem pyInsert_length (i : Nat) (a : α) (l : List α) :
    (pyInsert i a l).length = l.length + 1 :=
  (pyInsert_perm i a l).length_eq

theorem pyInsert_mem {x a : α} {l : List α} {i : Nat} (h : x ∈ pyInsert i a l) :
    x = a ∨ x ∈ l := by
  have := (pyInsert_perm i a l).mem_iff.mp h
  simpa using this

/-- Inserting at `bisect_right`'s insertion point keeps the list sorted. -/
theorem pyInsert_bisectRight_sorted {l : List Nat} (hs : l.Sorted (· ≤ ·)) (x : Nat) :
    (pyInsert (bisectRight l x) x l).Sorted (· ≤ ·) := by
  induction l with
  | nil => simp [pyInsert, bisectRight]
  | cons a l ih =>
    rcases List.sorted_cons.mp hs with ⟨ha, hl⟩
    rw [bisectRight_cons]
    by_cases hax : a ≤ x
    · simp only [hax, if_true]
      show ((a :: pyInsert (bisectRight l x) x l) : List Nat).Sorted (· ≤ ·)
      refine List.sorted_cons.mpr ⟨?_, ih hl⟩
      intro b hb
      rcases pyInsert_mem hb with rfl | hb
      · exact hax
      · exact ha _ hb
    · simp only [hax, if_false]
      show ((x :: a :: l) : List Nat).Sorted (· ≤ ·)
      refine List.sorted_cons.mpr ⟨?_, hs⟩
      intro b hb
      rcases List.mem_cons.mp hb with rfl | hb
      · omega
      · exact le_trans (by omega) (ha _ hb)

/-! ## C6: the seek/tell contract -/

/-- **C6**: on every open virtual file (seek/tell are inherited unchanged
from `FileProxy` by every subclass) and every `x ≥ 0`, `seek(x, SEEK_SET)`
succeeds, a subsequent `tell()` returns `x`, and for every seek (any
whence) whose target position would be negative the call fails with
`InvalidArgument` while the file state — hence the position the next
`tell` reports — is left unchanged.  (`fpSeek` is a function of the
`closed`/`size`/`pos` triple only: no backing storage occurs in its
state, mirroring that the Python method touches none.) -/
theorem fileProxy_seek_tell_contract (st : FPState) (x : Int)
    (hopen : st.closed = false) (hx : 0 ≤ x) :
    fpSeek st x .set = .ok { st with pos := x } ∧
    fpTell (fpSeekOrKeep st x .set) = .ok x ∧
    (∀ off w, seekTarget st off w < 0 →
      fpSeek st off w = .error .invalidArgument ∧ fpSeekOrKeep st off w = st) := by
  refine ⟨?_, ?_, ?_⟩
  · simp [fpSeek, hopen, show ¬ x < 0 by omega]
  · simp [fpSeekOrKeep, fpSeek, fpTell, hopen, show ¬ x < 0 by omega]
  · intro off w hneg
    have hseek : fpSeek st off w = .error .invalidArgument := by
      cases w <;> simp_all [fpSeek, seekTarget, hopen]
    exact ⟨hseek, by simp [fpSeekOrKeep, hseek]⟩

/-- Witness for C6 at the concrete open file `⟨false, 10, 2⟩` with
`x = 3` and the failing seek `seek(-5, SEEK_SET)`. -/
theorem fileProxy_seek_tell_contract_witness :
    (FPState.mk false 10 2).closed = false ∧ (0 : Int) ≤ 3 ∧
    (fpSeek ⟨false, 10, 2⟩ 3 .set = .ok ⟨false, 10, 3⟩ ∧
     fpTell (fpSeekOrKeep ⟨false, 10, 2⟩ 3 .set) = .ok 3 ∧
     (∀ off w, seekTarget ⟨false, 10, 2⟩ off w < 0 →
       fpSeek ⟨false, 10, 2⟩ off w = .error .invalidArgument ∧
       fpSeekOrKeep ⟨false, 10, 2⟩ off w = ⟨false, 10, 2⟩)) :=
  ⟨rfl, by omega, fileProxy_seek_tell_contract ⟨false, 10, 2⟩ 3 rfl (by omega)⟩

/-! ## C10: a CombinedFile over an empty parts sequence is born closed -/

/-- **C10**: `CombinedFile([])` has size 0, but `closed` is already true
at construction (`closed` is `not self._parts`), so every subsequent
`read`, `seek` or `tell` fails with the closed-file error rather than
behaving as an open zero-length file. -/
theorem combinedFile_empty_parts_closed :
    (mkCombinedFile []).size = 0 ∧
    cfClosed (mkCombinedFile []) = true ∧
    cfTell (mkCombinedFile []) = .error .closedResource ∧
    (∀ off w, cfSeek (mkCombinedFile []) off w = .error .closedResource) ∧
    (∀ n, (cfRead (mkCombinedFile []) n).1 = .error .closedResource) :=
  ⟨rfl, rfl, rfl, fun _ _ => rfl, fun _ => rfl⟩

/-! ## C8: bounded retry in `read_threadsafe` -/

theorem rtLoop_all_fail (attempt : Nat → Except Unit (Nat × List Nat))
    (discard : Nat → Bool) :
    ∀ r i, (∀ k, i ≤ k → k < i + r → attempt k = .error ()) →
      (rtLoop attempt discard i r).1 = .error .unavailableBackend := by
  intro r
  induction r with
  | zero => intro i _; rfl
  | succ r ih =>
    intro i h
    have hi : attempt i = .error () := h i le_rfl (by omega)
    simp only [rtLoop, hi]
    by_cases hr : r = 0
    · simp [hr]
    · simp only [hr, if_false]
      by_cases hd : discard i = true
      · have := ih (i + 1) (fun k hk hk' => h k (by omega) (by omega))
        simp only [hd, if_true]
        rcases hres : rtLoop attempt discard (i + 1) r with ⟨res, a, d⟩
        rw [hres] at this
        simpa using this
      · simp [hd]

theorem rtLoop_all_fail_count (attempt : Nat → Except Unit (Nat × List Nat))
    (discard : Nat → Bool) :
    ∀ r i, 1 ≤ r → (∀ k, i ≤ k → k < i + r → attempt k = .error ()) →
      (∀ k, i ≤ k → k + 1 < i + r → discard k = true) →
      rtLoop attempt discard i r = (.error .unavailableBackend, r, r - 1) := by
  intro r
  induction r with
  | zero => omega
  | succ r ih =>
    intro i _ h hd
    have hi : attempt i = .error () := h i le_rfl (by omega)
    simp only [rtLoop, hi]
    by_cases hr : r = 0
    · simp [hr]
    · have hdi : discard i = true := hd i le_rfl (by omega)
      have := ih i.succ (by omega) (fun k hk hk' => h k (by omega) (by omega))
        (fun k hk hk' => hd k (by omega) (by omega))
      simp only [hr, if_false, hdi, if_true, this]
      have : r - 1 + 1 = r := by omega
      simp [this]

theorem rtLoop_first_success (attempt : Nat → Except Unit (Nat × List Nat))
    (discard : Nat → Bool) (v : Nat × List Nat) :
    ∀ r i j, i ≤ j → j < i + r →
      (∀ k, i ≤ k → k < j → attempt k = .error ()) →
      (∀ k, i ≤ k → k < j → discard k = true) →
      attempt j = .ok v →
      rtLoop attempt discard i r = (.ok v, j - i + 1, j - i) := by
  intro r
  induction r with
  | zero => omega
  | succ r ih
    =>
    intro i j hij hjr h hd hj
    by_cases hji : j = i
    · subst hji
      simp [rtLoop, hj]
    · have hi : attempt i = .error () := h i le_rfl (by omega)
      have hr : r ≠ 0 := by omega
      have hdi : discard i = true := hd i le_rfl (by omega)
      have := ih (i + 1) j (by omega) (by omega)
        (fun k hk hk' => h k (by omega) hk') (fun k hk hk' => hd k (by omega) hk') hj
      simp only [rtLoop, hi, hr, if_false, hdi, if_true, this]
      have h1 : j - (i + 1) + 1 + 1 = j - i + 1 := by omega
      have h2 : j - (i + 1) + 1 = j - i := by omega
      simp [h1, h2]

/-- **C8**: `read_threadsafe` makes up to `MAX_RETRY + 1` fetch attempts
(`for i in range(self.MAX_RETRY + 1)`), discarding the broken stream
between consecutive attempts.  If every attempt fails, the whole read
fails with the backend-unavailable `IOError` — and when every discard also
completes, exactly `MAX_RETRY + 1` attempts and `MAX_RETRY` discards were
made.  If some attempt succeeds first at iteration `j`, its
`(read_offset, data)` result is returned and no further attempt is made
(`j + 1` attempts in total). -/
theorem mediaReader_bounded_retry (attempt : Nat → Except Unit (Nat × List Nat))
    (discard : Nat → Bool) :
    ((∀ i, i ≤ MAX_RETRY → attempt i = .error ()) →
      (readThreadsafe attempt discard).1 = .error .unavailableBackend) ∧
    ((∀ i, i ≤ MAX_RETRY → attempt i = .error ()) →
      (∀ i, i < MAX_RETRY → discard i = true) →
      readThreadsafe attempt discard =
        (.error .unavailableBackend, MAX_RETRY + 1, MAX_RETRY)) ∧
    (∀ j v, j ≤ MAX_RETRY →
      (∀ i, i < j → attempt i = .error ()) →
      (∀ i, i < j → discard i = true) →
      attempt j = .ok v →
      readThreadsafe attempt discard = (.ok v, j + 1, j)) := by
  refine ⟨?_, ?_, ?_⟩
  · intro h
    exact rtLoop_all_fail attempt discard (MAX_RETRY + 1) 0
      (fun k _ hk => h k (by omega))
  · intro h hd
    exact rtLoop_all_fail_count attempt discard (MAX_RETRY + 1) 0 (by omega)
      (fun k _ hk => h k (by omega)) (fun k _ hk => hd k (by omega))
  · intro j v hj h hd hok
    have := rtLoop_first_success attempt discard v (MAX_RETRY + 1) 0 j (by omega)
      (by omega) (fun k _ hk => h k hk) (fun k _ hk => hd k hk) hok
    simpa using this

/-- Witness for C8: with every attempt failing and every discard
succeeding, the read fails with `unavailableBackend` after 4 attempts and
3 discards; with the first success at attempt 2, its result is returned
after 3 attempts. -/
theorem mediaReader_bounded_retry_witness :
    readThreadsafe (fun _ => .error ()) (fun _ => true) =
      (.error .unavailableBackend, 4, 3) ∧
    readThreadsafe (fun i => if i = 2 then .ok (5, [1, 2]) else .error ()) (fun _ => true) =
      (.ok (5, [1, 2]), 3, 2) :=
  ⟨(mediaReader_bounded_retry (fun _ => .error ()) (fun _ => true)).2.1
     (fun _ _ => rfl) (fun _ _ => rfl),
   (mediaReader_bounded_retry (fun i => if i = 2 then .ok (5, [1, 2]) else .error ())
       (fun _ => true)).2.2 2 (5, [1, 2]) (by decide)
     (fun i hi => by interval_cases i <;> rfl) (fun _ _ => rfl) rfl⟩

/-! ## C7: one live stream per connection -/

/-- The inductive invariant of the per-connection state machine: every
live stream is the installed active one. -/
def ConnInv (st : ConnState) : Prop :=
  ∀ s, st.live s → st.active = some s

theorem connInv_init : ConnInv ⟨0, [], [], none⟩ := by
  intro s hs
  simp [ConnState.live] at hs

theorem connInv_step {st st' : ConnState} (hinv : ConnInv st)
    (hstep : ConnStep st st') : ConnInv st' := by
  cases hstep with
  | createStream => exact fun s hs => hinv s hs
  | closeActive a ha =>
    intro s hs
    rcases hs with ⟨hs1, hs2⟩
    exact hinv s ⟨hs1, fun hmem => hs2 (List.mem_cons_of_mem _ hmem)⟩
  | installFresh n hn hns hclosed =>
    intro s hs
    have := hinv s hs
    have := hclosed s this
    exact absurd this hs.2
  | installNone hclosed =>
    intro s hs
    have := hinv s hs
    have := hclosed s this
    exact absurd this hs.2
  | pullActive a ha =>
    intro s hs
    rcases hs with ⟨hs1, hs2⟩
    rcases List.mem_cons.mp hs1 with rfl | hs1
    · exact ha
    · exact hinv s ⟨hs1, hs2⟩

/-- **C7**: in every reachable state of the per-connection stream
bookkeeping — including the states in the middle of a stream replacement,
since every line of `_replace_aiter`/`read_coroutine` is its own
`ConnStep` — every live stream is the installed active one; in particular
at most one live stream exists per connection, at every step of the fetch
state machine.  The replacement steps (`installFresh`/`installNone`) carry
the code's ordering as their precondition: the previously active stream
has already been closed when the new one is installed. -/
theorem mediaReader_one_live_stream (st : ConnState) (h : ConnReachable st) :
    (∀ s, st.live s → st.active = some s) ∧
    (∀ s t, st.live s → st.live t → s = t) := by
  have hinv : ConnInv st := by
    induction h with
    | init => exact connInv_init
    | step _ hstep ih => exact connInv_step ih hstep
  refine ⟨hinv, fun s t hs ht => ?_⟩
  have h1 := hinv s hs
  have h2 := hinv t ht
  rw [h1] at h2
  exact Option.some_injective _ h2

/-- Witness for C7: the state after creating, installing and pulling one
stream, then replacing it with a second (close first, then install, then
pull) — reachable by chaining the micro-steps of two `read_coroutine`
calls — has exactly stream 1 live. -/
theorem mediaReader_one_live_stream_witness :
    ConnReachable ⟨2, [1, 0], [0], some 1⟩ ∧
    ((∀ s, (ConnState.mk 2 [1, 0] [0] (some 1)).live s →
        (ConnState.mk 2 [1, 0] [0] (some 1)).active = some s) ∧
     (∀ s t, (ConnState.mk 2 [1, 0] [0] (some 1)).live s →
        (ConnState.mk 2 [1, 0] [0] (some 1)).live t → s = t)) := by
  have h0 : ConnReachable ⟨0, [], [], none⟩ := .init
  have h1 : ConnReachable ⟨1, [], [], none⟩ := h0.step (.createStream _)
  have h2 : ConnReachable ⟨1, [], [], some 0⟩ :=
    h1.step (.installFresh _ 0 (by decide) (by simp) (by simp))
  have h3 : ConnReachable ⟨1, [0], [], some 0⟩ := h2.step (.pullActive _ 0 rfl)
  have h4 : ConnReachable ⟨2, [0], [], some 0⟩ := h3.step (.createStream _)
  have h5 : ConnReachable ⟨2, [0], [0], some 0⟩ := h4.step (.closeActive _ 0 rfl)
  have h6 : ConnReachable ⟨2, [0], [0], some 1⟩ :=
    h5.step (.installFresh _ 1 (by decide) (by simp) (by simp))
  have h7 : ConnReachable ⟨2, [1, 0], [0], some 1⟩ := h6.step (.pullActive _ 1 rfl)
  exact ⟨h7, mediaReader_one_live_stream _ h7⟩

/-! ## C1: what the eviction loop actually removes -/

theorem Budget.add_zero (b : Budget) : b.add 0 = b := by
  cases b <;> simp [Budget.add]

theorem Budget.add_add (b : Budget) (m n : Nat) : (b.add m).add n = b.add (m + n) := by
  cases b <;> simp [Budget.add] <;> omega

/-- The eviction loop removes some prefix of the (offset-sorted) cache:
the entries with the smallest start offsets, credited back to the
budget. -/
theorem evictLoop_spec (remaining : Budget) (offsets : List Nat)
    (chunks : List (List Nat)) (elog : List Nat)
    (hlen : offsets.length = chunks.length) :
    ∃ k, k ≤ offsets.length ∧
      evictLoop remaining offsets chunks elog =
        (remaining.add (((chunks.take k).map List.length).sum), offsets.drop k,
          chunks.drop k, elog ++ offsets.take k) := by
  induction offsets generalizing chunks remaining elog with
  | nil =>
    cases chunks with
    | nil => exact ⟨0, by omega, by simp [evictLoop, Budget.add_zero]⟩
    | cons c cs => simp at hlen
  | cons o os ih =>
    cases chunks with
    | nil => simp at hlen
    | cons c cs =>
      by_cases hneg : remaining.isNeg
      · rcases ih (remaining.add c.length) cs (elog ++ [o]) (by simpa using hlen)
          with ⟨k, hk, heq⟩
        refine ⟨k + 1, by simpa using hk, ?_⟩
        simp only [evictLoop, hneg, if_true, heq, List.take_succ_cons,
          List.drop_succ_cons, List.map_cons, List.sum_cons, Budget.add_add]
        simp [List.append_assoc]
      · exact ⟨0, by omega, by simp [evictLoop, hneg, Budget.add_zero]⟩

/-- In a sorted list, every element of a prefix is `≤` every element of
the corresponding suffix. -/
theorem sorted_take_le_drop {l : List Nat} (hs : l.Sorted (· ≤ ·)) (k : Nat) :
    ∀ x ∈ l.take k, ∀ y ∈ l.drop k, x ≤ y := by
  have h := hs
  rw [← List.take_append_drop k l] at h
  exact fun x hx y hy => (List.pairwise_append.mp h).2.2 x hx y hy

/-- **C1 (amended)**: while the remaining budget is negative and the cache
is non-empty, `CachedCustomFile` evicts from the *front of the
offset-sorted cache list* (`pop(0)` after `bisect`-sorted insertion): the
entries evicted by the eviction loop are a prefix of the sorted cache, so
each evicted entry has the smallest start offset among those still
resident — not necessarily the earliest-inserted one — and its size is
credited back to the budget.  At least one entry is evicted when the
budget is negative and the cache is non-empty. -/
theorem cachedFile_evicts_smallest_offset (remaining : Budget) (offsets : List Nat)
    (chunks : List (List Nat)) (elog : List Nat)
    (hs : offsets.Sorted (· ≤ ·)) (hlen : offsets.length = chunks.length) :
    ∃ k, k ≤ offsets.length ∧
      evictLoop remaining offsets chunks elog =
        (remaining.add (((chunks.take k).map List.length).sum), offsets.drop k,
          chunks.drop k, elog ++ offsets.take k) ∧
      (∀ x ∈ offsets.take k, ∀ y ∈ offsets.drop k, x ≤ y) ∧
      (remaining.isNeg = true → offsets ≠ [] → 1 ≤ k) := by
  rcases evictLoop_spec remaining offsets chunks elog hlen with ⟨k, hk, heq⟩
  refine ⟨k, hk, heq, sorted_take_le_drop hs k, ?_⟩
  intro hneg hne
  by_contra hlt
  have hk0 : k = 0 := by omega
  subst hk0
  cases offsets with
  | nil => exact hne rfl
  | cons o os =>
    cases chunks with
    | nil => simp at hlen
    | cons c cs =>
      simp only [evictLoop, hneg, if_true] at heq
      rcases evictLoop_spec (remaining.add c.length) os cs (elog ++ [o])
        (by simpa using hlen) with ⟨k', _, heq'⟩
      rw [heq'] at heq
      have h4 := congrArg (fun t => t.2.2.2.length) heq
      simp [List.length_append] at h4

/-- Witness for C1 (amended): budget `-3` with resident chunks at offsets
2 and 7 (sizes 2 and 3) evicts both, smallest offset first. -/
theorem cachedFile_evicts_smallest_offset_witness :
    ([2, 7] : List Nat).Sorted (· ≤ ·) ∧ ([2, 7] : List Nat).length = ([[1, 1], [2, 2, 2]] : List (List Nat)).length ∧
    (∃ k, k ≤ ([2, 7] : List Nat).length ∧
      evictLoop (.fin (-3)) [2, 7] [[1, 1], [2, 2, 2]] [] =
        ((Budget.fin (-3)).add ((([[1, 1], [2, 2, 2]] : List (List Nat)).take k |>.map List.length).sum),
          ([2, 7] : List Nat).drop k, ([[1, 1], [2, 2, 2]] : List (List Nat)).drop k,
          [] ++ ([2, 7] : List Nat).take k) ∧
      (∀ x ∈ ([2, 7] : List Nat).take k, ∀ y ∈ ([2, 7] : List Nat).drop k, x ≤ y) ∧
      ((Budget.fin (-3)).isNeg = true → ([2, 7] : List Nat) ≠ [] → 1 ≤ k)) :=
  ⟨by simp, rfl,
   cachedFile_evicts_smallest_offset (.fin (-3)) [2, 7] [[1, 1], [2, 2, 2]] []
     (by simp) rfl⟩

/-- **C1 (counterexample)**: the FIFO-by-insertion claim is false.  With
budget 10 and `readerA` (five-byte chunks at offsets 10, 0, 20, honouring
the containment contract), reading one byte at positions 10, 0, 20 in that
order inserts chunks in the order `[10, 0, 20]`; the eviction triggered by
the third fetch removes the chunk at offset 0 — inserted *second* — while
the first-inserted chunk (offset 10) stays resident, because the source
pops index 0 of the offset-sorted list, not the oldest entry. -/
theorem cachedFile_fifo_eviction_counterexample :
    ReaderContract readerA ∧
    ccExec readerA (mkCachedFile 30 (.fin 10))
        [.seek 10 .set, .read 1, .seek 0 .set, .read 1, .seek 20 .set, .read 1] =
      .ok { size := 30, pos := 21, remaining := .fin 0, offsets := [10, 20],
            chunks := [[10, 11, 12, 13, 14], [20, 21, 22, 23, 24]], calls := 3,
            insertLog := [10, 0, 20], evictLog := [0] } := by
  constructor
  · intro o
    simp only [readerA]
    split_ifs <;> simp <;> omega
  · rfl

/-! ## C2: the retry assertion is reachable under the callback contract -/

/-- **C2**: the code violates its own "now guaranteed to be a cache hit"
comment (line 106) and retry assertion (line 89).  `readerB` honours the
documented containment contract at *every* offset, yet the run below dies
in the retry-miss assertion (`protocolViolation`): after caching the
one-byte chunk at offset 5 and then the ten-byte chunk at offset 0, the
miss at position 8 fetches `(0, 10 bytes)` again, but the bisection at the
retry finds the shadowing one-byte chunk at offset 5, which does not
contain position 8. -/
theorem cachedFile_retry_assertion_reachable :
    ReaderContract readerB ∧
    ccExec readerB (mkCachedFile 20 .inf)
        [.seek 5 .set, .read 1, .seek 0 .set, .read 1, .seek 8 .set, .read 2] =
      .error .protocolViolation := by
  constructor
  · intro o
    simp only [readerB]
    split_ifs <;> simp <;> omega
  · rfl

/-! ## C3: which resident chunks are actually found by a read -/

/-- **C3 (counterexample)**: a read of a byte range entirely contained in
a *still-resident* chunk can nevertheless invoke the callback.  With
`readerC` (contract-honouring), after reads at positions 5 and 0 the cache
holds the chunks `(0, 10 bytes)` and `(5, 1 byte)`; the range `[8, 10)` of
the next read lies inside the resident chunk at offset 0, yet the read
invokes the reader once more (the bisection finds the shadowing one-byte
chunk at offset 5 and misses). -/
theorem cachedFile_resident_reread_counterexample :
    ReaderContract readerC ∧
    ccExec readerC (mkCachedFile 20 .inf)
        [.seek 5 .set, .read 1, .seek 0 .set, .read 1, .seek 8 .set] =
      .ok ⟨20, 8, .inf, [0, 5], [[100, 101, 102, 103, 104, 105, 106, 107, 108, 109], [105]],
           2, [5, 0], []⟩ ∧
    (0 : Nat) ≤ 8 ∧ 8 + 2 ≤ 0 + 10 ∧
    ccRead readerC
        ⟨20, 8, .inf, [0, 5], [[100, 101, 102, 103, 104, 105, 106, 107, 108, 109], [105]],
         2, [5, 0], []⟩ 2 =
      .ok ([7, 8],
        ⟨20, 10, .inf, [0, 5, 8],
         [[100, 101, 102, 103, 104, 105, 106, 107, 108, 109], [105], [7, 8]],
         3, [5, 0, 8], []⟩) := by
  refine ⟨?_, rfl, by omega, by omega, rfl⟩
  intro o
  simp only [readerC]
  split_ifs <;> simp <;> omega

/-- **C3 (amended)**: a read whose byte range is entirely contained in the
resident chunk that the offset bisection locates — the cached entry with
the greatest start offset `≤` the read position (the last such entry on
ties) — is served from the cache in one sub-read and never invokes the
chunk-source callback: the returned state differs from the input state
only in `pos`, so in particular its ghost invocation counter is
unchanged.  (With non-overlapping resident chunks the located entry is the
unique containing chunk, recovering the claim in that case.) -/
theorem ccReadLoop_zero_btr (reader : Nat → Nat × List Nat) (fuel : Nat) (st : CCState) :
    ccReadLoop reader fuel st 0 = .ok ([], st) := by
  cases fuel <;> simp [ccReadLoop]

theorem cachedFile_located_hit_no_callback (reader : Nat → Nat × List Nat)
    (st : CCState) (n : Int) (co : Nat) (cd : List Nat)
    (hn : -1 ≤ n) (hpos : st.pos < st.size)
    (hloc : locateChunk st.offsets st.chunks st.pos = some (co, cd))
    (hco : co ≤ st.pos)
    (hfit : st.pos + ccBtr st n ≤ co + cd.length) :
    ccRead reader st n =
      .ok ((cd.drop (st.pos - co)).take (ccBtr st n),
        { st with pos := st.pos + ccBtr st n }) := by
  have hlt : ¬ n < -1 := by omega
  have hsz : ¬ st.size ≤ st.pos := by omega
  simp only [ccRead, hlt, if_false, hsz]
  rcases hbtr : ccBtr st n with _ | k
  · have : ({ st with pos := st.pos + 0 } : CCState) = st := by simp
    rw [this]
    simp [ccReadLoop]
  · have hhit : tryHit st.offsets st.chunks st.pos (k + 1) =
        some ((cd.drop (st.pos - co)).take (k + 1)) := by
      simp only [tryHit, hloc]
      have : co ≤ st.pos ∧ st.pos < co + cd.length := ⟨hco, by omega⟩
      simp [this]
    have hlen : ((cd.drop (st.pos - co)).take (k + 1)).length = k + 1 := by
      rw [List.length_take, List.length_drop]
      omega
    simp only [ccReadLoop, Nat.succ_ne_zero, if_false, readSingleChunk, hhit, hlen,
      Nat.sub_self, ite_true, ccReadLoop_zero_btr]
    rw [List.append_nil]

/-- Witness for C3 (amended): position 1 inside the single resident chunk
`(0, [9, 9, 9])`, request 2 bytes. -/
theorem cachedFile_located_hit_no_callback_witness :
    ((-1 : Int) ≤ 2) ∧ (1 : Nat) < 3 ∧
    locateChunk [0] [[9, 9, 9]] 1 = some (0, [9, 9, 9]) ∧ (0 : Nat) ≤ 1 ∧
    1 + ccBtr ⟨3, 1, .inf, [0], [[9, 9, 9]], 1, [0], []⟩ 2 ≤ 0 + 3 ∧
    ccRead readerA ⟨3, 1, .inf, [0], [[9, 9, 9]], 1, [0], []⟩ 2 =
      .ok ([9, 9], ⟨3, 3, .inf, [0], [[9, 9, 9]], 1, [0], []⟩) := by
  refine ⟨by omega, by omega, rfl, by omega, by decide, ?_⟩
  have h := cachedFile_located_hit_no_callback readerA
    ⟨3, 1, .inf, [0], [[9, 9, 9]], 1, [0], []⟩ 2 0 [9, 9, 9]
    (by omega) (by decide) rfl (by omega) (by decide)
  simpa using h

/-! ## C4: `CombinedFile` over byte-string parts reads the concatenation -/

theorem getD_map_of_lt (f : α → β) (l : List α) (i : Nat) (hi : i < l.length)
    (d : α) (d' : β) : (l.map f).getD i d' = f (l.getD i d) := by
  rw [List.getD_eq_getElem _ d' (by simpa using hi), List.getD_eq_getElem _ d hi]
  simp

theorem pyAccumulate_length (acc : Nat) (l : List Nat) :
    (pyAccumulate acc l).length = l.length + 1 := by
  induction l generalizing acc with
  | nil => rfl
  | cons s ss ih => simp [pyAccumulate, ih]

theorem pyAccumulate_head_cons (acc : Nat) (l : List Nat) :
    ∃ t, pyAccumulate acc l = acc :: t := by
  cases l <;> exact ⟨_, rfl⟩

theorem pyAccumulate_getLastD (acc : Nat) (l : List Nat) (d : Nat) :
    (pyAccumulate acc l).getLastD d = acc + l.sum := by
  induction l generalizing acc d with
  | nil => simp [pyAccumulate]
  | cons s ss ih =>
    show (acc :: pyAccumulate (acc + s) ss).getLastD d = _
    rcases pyAccumulate_head_cons (acc + s) ss with ⟨t, ht⟩
    rw [ht, List.getLastD_cons, ← ht, ih]
    simp [Nat.add_assoc]

theorem pyAccumulate_shift (a : Nat) (l : List Nat) :
    pyAccumulate a l = (pyAccumulate 0 l).map (a + ·) := by
  induction l generalizing a with
  | nil => simp [pyAccumulate]
  | cons s ss ih =>
    show (a :: pyAccumulate (a + s) ss) = ((0 :: pyAccumulate (0 + s) ss).map (a + ·))
    simp only [List.map_cons, Nat.add_zero, List.cons.injEq, true_and]
    rw [ih (a + s), ih (0 + s), List.map_map]
    refine List.map_congr_left fun x _ => ?_
    simp only [Function.comp_apply]
    omega

theorem bisectRight_map_add (a : Nat) (l : List Nat) (x : Nat) :
    bisectRight (l.map (a + ·)) (a + x) = bisectRight l x := by
  induction l with
  | nil => rfl
  | cons b l ih =>
    simp only [List.map_cons, bisectRight_cons, ih]
    by_cases hbx : b ≤ x
    · rw [if_pos (by omega), if_pos hbx]
    · rw [if_neg (by omega), if_neg hbx]

theorem findPartSpecFn_spec (sizes : List Nat) (pos : Nat) (h : pos < sizes.sum) :
    ∀ i loc, findPartSpecFn sizes pos = (i, loc) →
      i < sizes.length ∧ (sizes.take i).sum + loc = pos ∧ loc < sizes.getD i 0 := by
  induction sizes generalizing pos with
  | nil => simp at h
  | cons s ss ih =>
    intro i loc heq
    by_cases hps : pos < s
    · simp only [findPartSpecFn, hps, if_true, Prod.mk.injEq] at heq
      rcases heq with ⟨rfl, rfl⟩
      simp [hps]
    · have h' : pos - s < ss.sum := by simp at h; omega
      rcases hfn : findPartSpecFn ss (pos - s) with ⟨i', loc'⟩
      rcases ih (pos - s) h' i' loc' hfn with ⟨h1, h2, h3⟩
      simp only [findPartSpecFn, hps, if_false, hfn, Prod.mk.injEq] at heq
      rcases heq with ⟨rfl, rfl⟩
      simp only [List.length_cons, List.take_succ_cons, List.sum_cons, List.getD_cons_succ]
      exact ⟨by omega, by omega, h3⟩

theorem findPart_eq (sizes : List Nat) (pos : Nat) (h : pos < sizes.sum) :
    findPart (pyAccumulate 0 sizes) sizes.length pos =
      some (findPartSpecFn sizes pos) := by
  induction sizes generalizing pos with
  | nil => simp at h
  | cons s ss ih =>
    have hcum : pyAccumulate 0 (s :: ss) = 0 :: pyAccumulate s ss := by
      simp [pyAccumulate]
    by_cases hps : pos < s
    · rcases pyAccumulate_head_cons s ss with ⟨t, ht⟩
      have hB : bisectRight (pyAccumulate s ss) pos = 0 := by
        rw [ht, bisectRight_cons, if_neg (by omega)]
      have hbr : bisectRight (0 :: pyAccumulate s ss) pos = 1 := by
        rw [bisectRight_cons, if_pos (Nat.zero_le pos), hB]
      rw [hcum]
      simp only [findPart, hbr, findPartSpecFn, hps, if_true, List.length_cons]
      norm_num
    · have hle : s ≤ pos := by omega
      have h' : pos - s < ss.sum := by simp at h; omega
      have ihp := ih (pos - s) h'
      have hshift : pyAccumulate s ss = (pyAccumulate 0 ss).map (s + ·) :=
        pyAccumulate_shift s ss
      have hB : bisectRight (pyAccumulate s ss) pos =
          bisectRight (pyAccumulate 0 ss) (pos - s) := by
        rw [hshift]
        have h2 : s + (pos - s) = pos := by omega
        conv_lhs => rw [← h2]
        rw [bisectRight_map_add]
      set B := bisectRight (pyAccumulate 0 ss) (pos - s) with hBdef
      simp only [findPart] at ihp
      by_cases hcond : 0 ≤ (B : Int) - 1 ∧ (B : Int) - 1 < (ss.length : Int)
      · rw [if_pos hcond] at ihp
        obtain ⟨k, hk⟩ : ∃ k, B = k + 1 := ⟨B - 1, by omega⟩
        have hklt : k < ss.length := by omega
        have htoNat : ((B : Int) - 1).toNat = k := by omega
        rw [htoNat] at ihp
        have hfn : findPartSpecFn ss (pos - s) =
            (k, (pos - s) - (pyAccumulate 0 ss).getD k 0) :=
          (Option.some_injective _ ihp).symm
        have hbr : bisectRight (0 :: pyAccumulate s ss) pos = B + 1 := by
          rw [bisectRight_cons, if_pos (Nat.zero_le pos), hB]
        have hglt : k < (pyAccumulate 0 ss).length := by
          rw [pyAccumulate_length]; omega
        have hgetD : (0 :: pyAccumulate s ss).getD (k + 1) 0 =
            s + (pyAccumulate 0 ss).getD k 0 := by
          rw [List.getD_cons_succ, hshift,
            getD_map_of_lt (s + ·) (pyAccumulate 0 ss) k hglt 0]
        rw [hcum]
        simp only [findPart, hbr, findPartSpecFn, hps, if_false, hfn, List.length_cons]
        split
        · have htn2 : (((B + 1 : Nat) : Int) - 1).toNat = k + 1 := by omega
          rw [htn2, hgetD]
          simp only [Option.some.injEq, Prod.mk.injEq]
          exact ⟨trivial, by omega⟩
        · next hcnd =>
            exfalso
            apply hcnd
            constructor
            · omega
            · push_cast
              omega
      · rw [if_neg hcond] at ihp
        exact absurd ihp (by simp)

/-- Dropping up to a position inside part `i` of a flattened list of
parts. -/
theorem flatten_drop_eq (contents : List (List Nat)) (i loc : Nat)
    (hi : i < contents.length) (hloc : loc ≤ (contents.getD i []).length) :
    contents.flatten.drop (((contents.take i).map List.length).sum + loc) =
      (contents.getD i []).drop loc ++ (contents.drop (i + 1)).flatten := by
  induction contents generalizing i with
  | nil => simp at hi
  | cons c cs ih =>
    cases i with
    | zero =>
      simp only [List.take_zero, List.map_nil, List.sum_nil, Nat.zero_add,
        List.flatten_cons, List.getD_cons_zero, List.drop_succ_cons, List.drop_zero]
      exact List.drop_append_of_le_length (by simpa using hloc)
    | succ i =>
      have hi' : i < cs.length := by simpa using hi
      simp only [List.take_succ_cons, List.map_cons, List.sum_cons, List.flatten_cons,
        List.getD_cons_succ, List.drop_succ_cons]
      rw [Nat.add_assoc, List.drop_append]
      exact ih i hi' (by simpa using hloc)

/-- The read loop of `CombinedFile.read`, specialised to byte-string
parts: it returns exactly the requested slice of the concatenation and
the advanced position. -/
theorem cfReadLoop_pure (contents : List (List Nat)) :
    ∀ fuel btr pos, btr ≤ fuel → pos + btr ≤ (contents.map List.length).sum →
      (cfReadLoop (contents.map purePart) (contents.map List.length)
        (pyAccumulate 0 (contents.map List.length)) fuel btr pos).1 =
      .ok ((contents.flatten.drop pos).take btr, pos + btr) := by
  intro fuel
  induction fuel with
  | zero =>
    intro btr pos hfuel _
    have : btr = 0 := by omega
    subst this
    simp [cfReadLoop]
  | succ fuel ih =>
    intro btr pos hfuel hbound
    cases btr with
    | zero => simp [cfReadLoop]
    | succ b =>
      have hpos : pos < (contents.map List.length).sum := by omega
      have hfp := findPart_eq (contents.map List.length) pos hpos
      rcases hfn : findPartSpecFn (contents.map List.length) pos with ⟨i, loc⟩
      rw [hfn] at hfp
      rcases findPartSpecFn_spec (contents.map List.length) pos hpos i loc hfn with ⟨h1, h2, h3⟩
      simp only [List.length_map] at h1
      have hszD : (contents.map List.length).getD i 0 = (contents.getD i []).length :=
        getD_map_of_lt List.length contents i h1 [] 0
      rw [hszD] at h3
      have hwant : min (b + 1) ((contents.map List.length).getD i 0 - loc) ≠ 0 := by
        rw [hszD]; omega
      set want := min (b + 1) ((contents.map List.length).getD i 0 - loc) with hwantdef
      have hwant1 : 1 ≤ want := by omega
      have hwantle : want ≤ b + 1 := by omega
      have hwantfit : loc + want ≤ (contents.getD i []).length := by
        rw [hwantdef, hszD]; omega
      have hpart : (contents.map purePart).getD i default = purePart (contents.getD i []) :=
        getD_map_of_lt purePart contents i h1 [] default
      have hchunk : (purePart (contents.getD i [])).readFn loc want =
          ((contents.getD i []).drop loc).take want := rfl
      have hchunklen : (((contents.getD i []).drop loc).take want).length = want := by
        rw [List.length_take, List.length_drop]
        omega
      have hmaplen : (contents.take i).map List.length = (contents.map List.length).take i := by
        simp
      -- the fetched slice is the corresponding slice of the flattened contents
      have hdrop : contents.flatten.drop pos =
          (contents.getD i []).drop loc ++ (contents.drop (i + 1)).flatten := by
        have := flatten_drop_eq contents i loc h1 (by omega)
        rw [hmaplen] at this
        rw [← this]
        congr 1
        omega
      have hslice : ((contents.getD i []).drop loc).take want =
          (contents.flatten.drop pos).take want := by
        rw [hdrop, List.take_append_of_le_length]
        rw [List.length_drop]
        omega
      have hrec := ih (b + 1 - want) (pos + want) (by omega) (by omega)
      have hfp2 : findPart (pyAccumulate 0 (contents.map List.length))
          (contents.map purePart).length pos = some (i, loc) := by
        rw [List.length_map]
        simpa using hfp
      simp only [cfReadLoop, hfp2, hwant, if_false, hpart, hchunk, hchunklen, ite_false,
        ne_eq, not_true_eq_false]
      rcases hres : cfReadLoop (contents.map purePart) (contents.map List.length)
          (pyAccumulate 0 (contents.map List.length)) fuel (b + 1 - want) (pos + want)
        with ⟨res, calls⟩
      rw [hres] at hrec
      simp only at hrec
      subst hrec
      simp only
      rw [hslice, ← List.drop_drop, ← List.take_add,
        show want + (b + 1 - want) = b + 1 by omega,
        show pos + want + (b + 1 - want) = pos + (b + 1) by omega]

theorem mkCombined_pure_sizes (contents : List (List Nat)) :
    (contents.map purePart).map (·.size) = contents.map List.length := by
  rw [List.map_map]
  rfl

/-- **C4**: a `CombinedFile` over parts backed by fixed byte strings has
size equal to the sum of the part sizes, and from every position `p`,
`read(n)` returns exactly the slice of the logical concatenation of the
parts starting at `p` — of length `min(n, size - p)`, all of the rest for
`n = -1`, empty at or past the end — including reads that straddle part
boundaries, and advances the position by the number of bytes returned. -/
theorem combinedFile_read_concat (contents : List (List Nat)) (p : Nat) (n : Int)
    (hne : contents ≠ []) (hn : -1 ≤ n) :
    (mkCombinedFile (contents.map purePart)).size = (contents.map List.length).sum ∧
    ((cfRead { mkCombinedFile (contents.map purePart) with pos := p } n).1 =
      .ok ((contents.flatten.drop p).take
             (if n = -1 then (contents.map List.length).sum - p
              else min n.toNat ((contents.map List.length).sum - p)),
        { mkCombinedFile (contents.map purePart) with
            pos := p + (if n = -1 then (contents.map List.length).sum - p
                        else min n.toNat ((contents.map List.length).sum - p)) })) ∧
    ((contents.flatten.drop p).take
        (if n = -1 then (contents.map List.length).sum - p
         else min n.toNat ((contents.map List.length).sum - p))).length =
      (if n = -1 then (contents.map List.length).sum - p
       else min n.toNat ((contents.map List.length).sum - p)) := by
  set total := (contents.map List.length).sum with htotal
  set btr := (if n = -1 then total - p else min n.toNat (total - p)) with hbtr
  set st : CFState := { mkCombinedFile (contents.map purePart) with pos := p } with hst
  have hsizes : ((contents.map purePart).map (·.size)) = contents.map List.length :=
    mkCombined_pure_sizes contents
  have hsize : (mkCombinedFile (contents.map purePart)).size = total := by
    show (pyAccumulate 0 ((contents.map purePart).map (·.size))).getLastD 0 = total
    rw [hsizes, pyAccumulate_getLastD, htotal]
    omega
  have hstsize : st.size = total := hsize
  have hclosed : cfClosed st = false := by
    simp only [cfClosed, hst]
    show ((contents.map purePart).isEmpty) = false
    cases contents with
    | nil => exact absurd rfl hne
    | cons c cs => rfl
  have hbtrle : btr ≤ total - p := by
    rw [hbtr]
    split <;> omega
  have hlen : ((contents.flatten.drop p).take btr).length = btr := by
    rw [List.length_take, List.length_drop, List.length_flatten, ← htotal]
    omega
  refine ⟨hsize, ?_, hlen⟩
  have hlt : ¬ n < -1 := by omega
  by_cases hend : total ≤ p
  · have hb0 : btr = 0 := by omega
    have hsle : st.size ≤ st.pos := by rw [hstsize]; exact hend
    simp only [cfRead, hclosed, Bool.false_eq_true, if_false, hlt, hsle, if_true, hb0]
    rfl
  · have hple : p < total := by omega
    have hsle : ¬ st.size ≤ st.pos := by rw [hstsize]; exact fun hc => hend hc
    have hpsz : st.partSizes = contents.map List.length := hsizes
    have hcum : st.cumOffsets = pyAccumulate 0 (contents.map List.length) := by
      show pyAccumulate 0 ((contents.map purePart).map (·.size)) = _
      rw [hsizes]
    have hbtr2 : (if n = -1 then st.size - st.pos else min n.toNat (st.size - st.pos)) = btr := by
      rw [show st.pos = p from rfl, hstsize, hbtr]
    have hloop := cfReadLoop_pure contents btr btr p le_rfl (by omega)
    simp only [cfRead, hclosed, Bool.false_eq_true, if_false, hlt, hsle, if_true, hbtr2]
    have hp1 : (mkCombinedFile (contents.map purePart)).parts = contents.map purePart := rfl
    have hp2 : (mkCombinedFile (contents.map purePart)).partSizes =
        contents.map List.length := hsizes
    have hp3 : (mkCombinedFile (contents.map purePart)).cumOffsets =
        pyAccumulate 0 (contents.map List.length) := by
      show pyAccumulate 0 ((contents.map purePart).map (·.size)) = _
      rw [hsizes]
    rcases hres : cfReadLoop (contents.map purePart) (contents.map List.length)
        (pyAccumulate 0 (contents.map List.length)) btr btr p with ⟨res, calls⟩
    rw [hres] at hloop
    simp only at hloop
    subst hloop
    rw [hp1, hp2, hp3, hres]

/-- Witness for C4: parts `[1,2,3]`, `[4,5]`, `[6,7,8]`, reading 4 bytes
from position 2 straddles the first two boundaries and yields
`[3,4,5,6]`. -/
theorem combinedFile_read_concat_witness :
    ([[1, 2, 3], [4, 5], [6, 7, 8]] : List (List Nat)) ≠ [] ∧ (-1 : Int) ≤ 4 ∧
    (mkCombinedFile ([[1, 2, 3], [4, 5], [6, 7, 8]].map purePart)).size = 8 ∧
    (cfRead { mkCombinedFile ([[1, 2, 3], [4, 5], [6, 7, 8]].map purePart) with pos := 2 } 4).1 =
      .ok ([3, 4, 5, 6],
        { mkCombinedFile ([[1, 2, 3], [4, 5], [6, 7, 8]].map purePart) with pos := 6 }) := by
  have h := combinedFile_read_concat [[1, 2, 3], [4, 5], [6, 7, 8]] 2 4
    (by simp) (by omega)
  refine ⟨by simp, by omega, ?_, ?_⟩
  · simpa using h.1
  · have h2 := h.2.1
    norm_num at h2
    simpa using h2

/-! ## C5: under-delivering parts and `DataCorruption` -/

/-- On in-range requests the general read loop either succeeds or fails
with `dataCorruption`; no other exception can escape it. -/
theorem cfReadLoop_ok_or_corrupt (parts : List CFPart) :
    ∀ fuel btr pos, btr ≤ fuel →
      pos + btr ≤ (parts.map (·.size)).sum →
      (∃ bs p', (cfReadLoop parts (parts.map (·.size))
          (pyAccumulate 0 (parts.map (·.size))) fuel btr pos).1 = .ok (bs, p')) ∨
      (cfReadLoop parts (parts.map (·.size))
          (pyAccumulate 0 (parts.map (·.size))) fuel btr pos).1 =
        .error .dataCorruption := by
  intro fuel
  induction fuel with
  | zero =>
    intro btr pos hfuel _
    have : btr = 0 := by omega
    subst this
    exact Or.inl ⟨[], pos, by simp [cfReadLoop]⟩
  | succ fuel ih =>
    intro btr pos hfuel hbound
    cases btr with
    | zero => exact Or.inl ⟨[], pos, by simp [cfReadLoop]⟩
    | succ b =>
      have hpos : pos < (parts.map (·.size)).sum := by omega
      have hfp := findPart_eq (parts.map (·.size)) pos hpos
      rcases hfn : findPartSpecFn (parts.map (·.size)) pos with ⟨i, loc⟩
      rw [hfn] at hfp
      rcases findPartSpecFn_spec (parts.map (·.size)) pos hpos i loc hfn with ⟨h1, h2, h3⟩
      simp only [List.length_map] at h1
      have hfp2 : findPart (pyAccumulate 0 (parts.map (·.size))) parts.length pos =
          some (i, loc) := by
        rw [← List.length_map parts (·.size)]
        exact hfp
      have hwant : min (b + 1) ((parts.map (·.size)).getD i 0 - loc) ≠ 0 := by omega
      set want := min (b + 1) ((parts.map (·.size)).getD i 0 - loc) with hwantdef
      simp only [cfReadLoop, hfp2, hwant, if_false]
      by_cases hshort : ((parts.getD i default).readFn loc want).length ≠ want
      · rw [if_pos hshort]
        exact Or.inr rfl
      · rw [if_neg hshort]
        rcases hres : cfReadLoop parts (parts.map (·.size))
            (pyAccumulate 0 (parts.map (·.size))) fuel (b + 1 - want) (pos + want)
          with ⟨res, calls⟩
        rcases ih (b + 1 - want) (pos + want) (by omega) (by omega) with hok | herr
        · rcases hok with ⟨bs, p', hok⟩
          rw [hres] at hok
          simp only at hok
          subst hok
          exact Or.inl ⟨_, _, rfl⟩
        · rw [hres] at herr
          simp only at herr
          subst herr
          exact Or.inr rfl

/-- With fully delivering parts the read loop always succeeds. -/
theorem cfReadLoop_full_ok (parts : List CFPart) (hfull : FullDelivery parts) :
    ∀ fuel btr pos, btr ≤ fuel →
      pos + btr ≤ (parts.map (·.size)).sum →
      ∃ bs p', (cfReadLoop parts (parts.map (·.size))
          (pyAccumulate 0 (parts.map (·.size))) fuel btr pos).1 = .ok (bs, p') := by
  intro fuel
  induction fuel with
  | zero =>
    intro btr pos hfuel _
    have : btr = 0 := by omega
    subst this
    exact ⟨[], pos, by simp [cfReadLoop]⟩
  | succ fuel ih =>
    intro btr pos hfuel hbound
    cases btr with
    | zero => exact ⟨[], pos, by simp [cfReadLoop]⟩
    | succ b =>
      have hpos : pos < (parts.map (·.size)).sum := by omega
      have hfp := findPart_eq (parts.map (·.size)) pos hpos
      rcases hfn : findPartSpecFn (parts.map (·.size)) pos with ⟨i, loc⟩
      rw [hfn] at hfp
      rcases findPartSpecFn_spec (parts.map (·.size)) pos hpos i loc hfn with ⟨h1, h2, h3⟩
      simp only [List.length_map] at h1
      have hfp2 : findPart (pyAccumulate 0 (parts.map (·.size))) parts.length pos =
          some (i, loc) := by
        rw [← List.length_map parts (·.size)]
        exact hfp
      have hszD : (parts.map (·.size)).getD i 0 = (parts.getD i default).size :=
        getD_map_of_lt (·.size) parts i h1 default 0
      rw [hszD] at h3
      have hwant : min (b + 1) ((parts.map (·.size)).getD i 0 - loc) ≠ 0 := by
        rw [hszD]; omega
      set want := min (b + 1) ((parts.map (·.size)).getD i 0 - loc) with hwantdef
      have hw1 : 1 ≤ want := by omega
      have hwfit : loc + want ≤ (parts.getD i default).size := by
        rw [hwantdef, hszD]; omega
      have hchunk : ((parts.getD i default).readFn loc want).length = want :=
        hfull i loc want h1 hw1 hwfit
      simp only [cfReadLoop, hfp2, hwant, if_false, hchunk, ite_false, ne_eq,
        not_true_eq_false]
      rcases hres : cfReadLoop parts (parts.map (·.size))
          (pyAccumulate 0 (parts.map (·.size))) fuel (b + 1 - want) (pos + want)
        with ⟨res, calls⟩
      rcases ih (b + 1 - want) (pos + want) (by omega) (by omega) with ⟨bs, p', hok⟩
      rw [hres] at hok
      simp only at hok
      subst hok
      exact ⟨_, _, rfl⟩

/-- When the very first located part under-delivers, the loop raises
`dataCorruption` after exactly one part-read invocation. -/
theorem cfReadLoop_first_short (parts : List CFPart) (f b pos i loc : Nat)
    (hfp : findPart (pyAccumulate 0 (parts.map (·.size))) parts.length pos =
      some (i, loc))
    (hwant : min (b + 1) ((parts.map (·.size)).getD i 0 - loc) ≠ 0)
    (hshort : ((parts.getD i default).readFn loc
        (min (b + 1) ((parts.map (·.size)).getD i 0 - loc))).length ≠
      min (b + 1) ((parts.map (·.size)).getD i 0 - loc)) :
    cfReadLoop parts (parts.map (·.size)) (pyAccumulate 0 (parts.map (·.size)))
      (f + 1) (b + 1) pos = (.error .dataCorruption, 1) := by
  simp only [cfReadLoop, hfp]
  rw [if_neg hwant, if_pos hshort]

/-- **C5**: during a `CombinedFile.read`, (1) when every part delivers its
sub-reads fully, the read succeeds — no `DataCorruption` is raised; (2) the
only exception a read can fail with is `DataCorruption` (and the error
return carries no bytes: no partial result reaches the caller); (3) when
the first located part under-delivers its sub-read, the whole read fails
with `DataCorruption` after exactly one part-read invocation — it is not
retried. -/
theorem combinedFile_underdelivery (parts : List CFPart) (p : Nat) (n : Int)
    (hne : parts ≠ []) (hn : -1 ≤ n) :
    (FullDelivery parts →
      ∃ bs st', (cfRead { mkCombinedFile parts with pos := p } n).1 = .ok (bs, st')) ∧
    (∀ e, (cfRead { mkCombinedFile parts with pos := p } n).1 = .error e →
      e = .dataCorruption) ∧
    (∀ i loc, p < (parts.map (·.size)).sum →
      1 ≤ (if n = -1 then (parts.map (·.size)).sum - p
           else min n.toNat ((parts.map (·.size)).sum - p)) →
      findPart (pyAccumulate 0 (parts.map (·.size))) parts.length p = some (i, loc) →
      (((parts.getD i default).readFn loc
          (min (if n = -1 then (parts.map (·.size)).sum - p
                else min n.toNat ((parts.map (·.size)).sum - p))
            ((parts.map (·.size)).getD i 0 - loc))).length ≠
        min (if n = -1 then (parts.map (·.size)).sum - p
             else min n.toNat ((parts.map (·.size)).sum - p))
          ((parts.map (·.size)).getD i 0 - loc)) →
      cfRead { mkCombinedFile parts with pos := p } n = (.error .dataCorruption, 1)) := by
  have hmk : ({ mkCombinedFile parts with pos := p } : CFState) =
      ⟨parts, parts.map (·.size), pyAccumulate 0 (parts.map (·.size)),
       (pyAccumulate 0 (parts.map (·.size))).getLastD 0, p⟩ := rfl
  have hgl : (pyAccumulate 0 (parts.map (·.size))).getLastD 0 = (parts.map (·.size)).sum := by
    rw [pyAccumulate_getLastD]
    exact Nat.zero_add _
  rw [hmk, hgl]
  have hne' : parts.isEmpty = false := by
    cases parts with
    | nil => exact absurd rfl hne
    | cons a l => rfl
  have hlt : ¬ n < -1 := by omega
  set total := (parts.map (·.size)).sum with htotal
  set btr := (if n = -1 then total - p else min n.toNat (total - p)) with hbtrdef
  have hbtrle : btr ≤ total - p := by rw [hbtrdef]; split <;> omega
  refine ⟨?_, ?_, ?_⟩
  · intro hfull
    by_cases hend : total ≤ p
    · refine ⟨[], ⟨parts, parts.map (·.size), pyAccumulate 0 (parts.map (·.size)), total, p⟩, ?_⟩
      simp only [cfRead, cfClosed, hne', Bool.false_eq_true, if_false, hlt]
      rw [if_pos hend]
    · rcases cfReadLoop_full_ok parts hfull btr btr p le_rfl (by omega) with ⟨bs, p', hok⟩
      simp only [cfRead, cfClosed, hne', Bool.false_eq_true, if_false, hlt]
      rw [if_neg hend, ← hbtrdef]
      rcases hres : cfReadLoop parts (parts.map (·.size))
          (pyAccumulate 0 (parts.map (·.size))) btr btr p with ⟨res, calls⟩
      rw [hres] at hok
      simp only at hok
      subst hok
      rw [hres]
      exact ⟨bs, _, rfl⟩
  · intro e he
    by_cases hend : total ≤ p
    · simp only [cfRead, cfClosed, hne', Bool.false_eq_true, if_false, hlt] at he
      rw [if_pos hend] at he
      exact absurd he (by simp)
    · simp only [cfRead, cfClosed, hne', Bool.false_eq_true, if_false, hlt] at he
      rw [if_neg hend, ← hbtrdef] at he
      rcases hres : cfReadLoop parts (parts.map (·.size))
          (pyAccumulate 0 (parts.map (·.size))) btr btr p with ⟨res, calls⟩
      rw [hres] at he
      rcases cfReadLoop_ok_or_corrupt parts btr btr p le_rfl (by omega) with hok | herr
      · rcases hok with ⟨bs, p', hok⟩
        rw [hres] at hok
        simp only at hok
        subst hok
        simp at he
      · rw [hres] at herr
        simp only at herr
        subst herr
        simp only at he
        exact (Except.error.inj he).symm
  · intro i loc hple hbtr1 hfp hshort
    have hend : ¬ total ≤ p := by omega
    have hfp' := findPart_eq (parts.map (·.size)) p (by omega)
    have hfp2 : findPart (pyAccumulate 0 (parts.map (·.size))) parts.length p =
        some (findPartSpecFn (parts.map (·.size)) p) := by
      rw [← List.length_map parts (·.size)]
      exact hfp'
    have hpair : findPartSpecFn (parts.map (·.size)) p = (i, loc) :=
      Option.some_injective _ (hfp2.symm.trans hfp)
    rcases findPartSpecFn_spec (parts.map (·.size)) p (by omega) i loc hpair
      with ⟨h1, h2, h3⟩
    simp only [cfRead, cfClosed, hne', Bool.false_eq_true, if_false, hlt]
    rw [if_neg hend, ← hbtrdef]
    obtain ⟨b, hb⟩ : ∃ b, btr = b + 1 := ⟨btr - 1, by omega⟩
    rw [hb]
    rw [hb] at hshort
    have hloop := cfReadLoop_first_short parts b b p i loc hfp (by omega) hshort
    rw [hloop]

/-- Witness for C5: a fully delivering single part succeeds; a part that
claims size 3 but returns one byte fails with `DataCorruption` after one
invocation. -/
theorem combinedFile_underdelivery_witness :
    ([purePart [1, 2]] : List CFPart) ≠ [] ∧ (-1 : Int) ≤ 2 ∧
    FullDelivery [purePart [1, 2]] ∧
    (∃ bs st', (cfRead { mkCombinedFile [purePart [1, 2]] with pos := 0 } 2).1 =
      .ok (bs, st')) ∧
    cfRead { mkCombinedFile [(⟨3, fun _ _ => [9]⟩ : CFPart)] with pos := 0 } 2 =
      (.error .dataCorruption, 1) := by
  have hfull : FullDelivery [purePart [1, 2]] := by
    intro i loc want h1 h2 h3
    have hi0 : i = 0 := by simp at h1; omega
    subst hi0
    simp only [List.getD_cons_zero, purePart] at h3 ⊢
    rw [List.length_take, List.length_drop]
    simp only [List.length_cons, List.length_nil] at h3 ⊢
    omega
  refine ⟨by simp, by omega, hfull, ?_, ?_⟩
  · exact (combinedFile_underdelivery [purePart [1, 2]] 0 2 (by simp) (by omega)).1 hfull
  · exact (combinedFile_underdelivery [⟨3, fun _ _ => [9]⟩] 0 2 (by simp) (by omega)).2.2
      0 0 (by decide) (by decide) rfl (by decide)

/-! ## C9: the `CachedCustomFile` state invariant -/

/-- The invariant of a `CachedCustomFile` constructed with budget `B`:
the offsets list is sorted non-decreasingly, the two parallel cache lists
have equal length, and the accounting identity
`remaining = B - (total bytes resident)` holds. -/
def CCInv (B : Budget) (st : CCState) : Prop :=
  st.offsets.Sorted (· ≤ ·) ∧
  st.offsets.length = st.chunks.length ∧
  st.remaining = B.sub ((st.chunks.map List.length).sum)

theorem Budget.sub_sub_add (B : Budget) (s d t : Nat) (h : t ≤ s) :
    ((B.sub s).sub d).add t = B.sub (d + (s - t)) := by
  cases B with
  | inf => rfl
  | fin z =>
    simp only [Budget.sub, Budget.add, Budget.fin.injEq]
    push_cast [Nat.cast_sub h]
    omega

theorem readSingleChunk_inv (reader : Nat → Nat × List Nat) (B : Budget)
    (st : CCState) (size : Nat) (bs : List Nat) (st' : CCState)
    (hinv : CCInv B st) (h : readSingleChunk reader st size = .ok (bs, st')) :
    CCInv B st' ∧ st'.pos = st.pos ∧ st'.size = st.size := by
  rcases hinv with ⟨hsort, hlen, hbud⟩
  unfold readSingleChunk at h
  rcases htry : tryHit st.offsets st.chunks st.pos size with _ | b0
  · rw [htry] at h
    rcases hrd : reader st.pos with ⟨ro, d⟩
    rw [hrd] at h
    simp only at h
    rcases heq : evictLoop (st.remaining.sub d.length) st.offsets st.chunks st.evictLog
      with ⟨rem2, off2, ch2, elog2⟩
    rw [heq] at h
    rcases evictLoop_spec (st.remaining.sub d.length) st.offsets st.chunks st.evictLog hlen
      with ⟨k, hk, heq2⟩
    rw [heq] at heq2
    have hrem2 : rem2 = (st.remaining.sub d.length).add
        (((st.chunks.take k).map List.length).sum) := congrArg (·.1) heq2
    have hoff2 : off2 = st.offsets.drop k := congrArg (·.2.1) heq2
    have hch2 : ch2 = st.chunks.drop k := congrArg (·.2.2.1) heq2
    simp only at h
    rcases htry2 : tryHit (pyInsert (bisectRight off2 ro) ro off2)
        (pyInsert (bisectRight off2 ro) d ch2) st.pos size with _ | b1
    · rw [htry2] at h
      simp at h
    · rw [htry2] at h
      simp only [Except.ok.injEq, Prod.mk.injEq] at h
      rcases h with ⟨rfl, rfl⟩
      refine ⟨⟨?_, ?_, ?_⟩, rfl, rfl⟩
      · show (pyInsert (bisectRight off2 ro) ro off2).Sorted (· ≤ ·)
        rw [hoff2]
        exact pyInsert_bisectRight_sorted (hsort.drop) ro
      · show (pyInsert (bisectRight off2 ro) ro off2).length =
          (pyInsert (bisectRight off2 ro) d ch2).length
        rw [pyInsert_length, pyInsert_length, hoff2, hch2,
          List.length_drop, List.length_drop, hlen]
      · show rem2 = B.sub (((pyInsert (bisectRight off2 ro) d ch2).map List.length).sum)
        have hperm : ((pyInsert (bisectRight off2 ro) d ch2).map List.length).Perm
            ((d :: ch2).map List.length) :=
          (pyInsert_perm (bisectRight off2 ro) d ch2).map List.length
        rw [hperm.sum_eq, hrem2, hbud, hch2]
        have htk : ((st.chunks.take k).map List.length).sum ≤
            (st.chunks.map List.length).sum := by
          have hsplit : ((st.chunks.map List.length).take k).sum +
              ((st.chunks.map List.length).drop k).sum = (st.chunks.map List.length).sum :=
            List.sum_take_add_sum_drop _ k
          have hmt : (st.chunks.take k).map List.length =
              (st.chunks.map List.length).take k := by simp
          rw [hmt]
          omega
        rw [Budget.sub_sub_add _ _ _ _ htk]
        have hdropmap : (st.chunks.drop k).map List.length =
            (st.chunks.map List.length).drop k := by simp
        have htkmap : (st.chunks.take k).map List.length =
            (st.chunks.map List.length).take k := by simp
        have hsplit : ((st.chunks.map List.length).take k).sum +
            ((st.chunks.map List.length).drop k).sum = (st.chunks.map List.length).sum :=
          List.sum_take_add_sum_drop _ k
        simp only [List.map_cons, List.sum_cons, hdropmap]
        rw [htkmap]
        congr 1
        omega
  · rw [htry] at h
    simp only [Except.ok.injEq, Prod.mk.injEq] at h
    rcases h with ⟨rfl, rfl⟩
    exact ⟨⟨hsort, hlen, hbud⟩, rfl, rfl⟩

theorem ccReadLoop_inv (reader : Nat → Nat × List Nat) (B : Budget) :
    ∀ fuel (st : CCState) btr bs st', CCInv B st →
      ccReadLoop reader fuel st btr = .ok (bs, st') → CCInv B st' := by
  intro fuel
  induction fuel with
  | zero =>
    intro st btr bs st' hinv h
    simp only [ccReadLoop] at h
    split at h
    · simp only [Except.ok.injEq, Prod.mk.injEq] at h
      exact h.2 ▸ hinv
    · simp at h
  | succ fuel ih =>
    intro st btr bs st' hinv h
    simp only [ccReadLoop] at h
    by_cases hb : btr = 0
    · rw [if_pos hb] at h
      simp only [Except.ok.injEq, Prod.mk.injEq] at h
      exact h.2 ▸ hinv
    · rw [if_neg hb] at h
      rcases hsing : readSingleChunk reader st btr with e | ⟨chunk, st1⟩
      · rw [hsing] at h
        simp at h
      · rw [hsing] at h
        simp only at h
        have hinv1 := (readSingleChunk_inv reader B st btr chunk st1 hinv hsing).1
        have hinv2 : CCInv B { st1 with pos := st1.pos + chunk.length } := hinv1
        rcases hloop : ccReadLoop reader fuel { st1 with pos := st1.pos + chunk.length }
            (btr - chunk.length) with e | ⟨rest, st2⟩
        · rw [hloop] at h
          simp at h
        · rw [hloop] at h
          simp only [Except.ok.injEq, Prod.mk.injEq] at h
          rcases h with ⟨_, rfl⟩
          exact ih _ _ _ _ hinv2 hloop

theorem ccRead_inv (reader : Nat → Nat × List Nat) (B : Budget) (st : CCState)
    (n : Int) (bs : List Nat) (st' : CCState) (hinv : CCInv B st)
    (h : ccRead reader st n = .ok (bs, st')) : CCInv B st' := by
  unfold ccRead at h
  split at h
  · simp at h
  · split at h
    · simp only [Except.ok.injEq, Prod.mk.injEq] at h
      exact h.2 ▸ hinv
    · exact ccReadLoop_inv reader B _ st _ bs st' hinv h

theorem ccSeek_inv (B : Budget) (st : CCState) (off : Int) (w : Whence)
    (st' : CCState) (hinv : CCInv B st) (h : ccSeek st off w = .ok st') :
    CCInv B st' := by
  unfold ccSeek at h
  cases w <;> simp only at h <;> split at h <;> simp at h <;>
    (subst h; exact hinv)

theorem ccExec_inv (reader : Nat → Nat × List Nat) (B : Budget) :
    ∀ ops (st st' : CCState), CCInv B st → ccExec reader st ops = .ok st' →
      CCInv B st' := by
  intro ops
  induction ops with
  | nil =>
    intro st st' hinv h
    simp only [ccExec, Except.ok.injEq] at h
    exact h ▸ hinv
  | cons op ops ih =>
    intro st st' hinv h
    cases op with
    | seek off w =>
      simp only [ccExec] at h
      rcases hs : ccSeek st off w with e | st1
      · rw [hs] at h; simp at h
      · rw [hs] at h
        exact ih st1 st' (ccSeek_inv B st off w st1 hinv hs) h
    | read n =>
      simp only [ccExec] at h
      rcases hr : ccRead reader st n with e | ⟨bs, st1⟩
      · rw [hr] at h; simp at h
      · rw [hr] at h
        exact ih st1 st' (ccRead_inv reader B st n bs st1 hinv hr) h

/-- **C9**: after every completed run of seek/read operations on a
`CachedCustomFile` constructed with budget `B`, the accounting identity
`remaining_buffer_size = B - (sum of resident chunk lengths)` holds
(equivalently `B - remaining = Σ lengths`), the offsets list is sorted in
non-decreasing order, and the offsets and data-chunks lists have equal
length (entry `i` of the offsets list being the start offset under which
chunk `i` was inserted). -/
theorem cachedFile_state_invariant (reader : Nat → Nat × List Nat) (B : Budget)
    (size : Nat) (ops : List FileOp) (st : CCState)
    (h : ccExec reader (mkCachedFile size B) ops = .ok st) :
    st.remaining = B.sub ((st.chunks.map List.length).sum) ∧
    st.offsets.Sorted (· ≤ ·) ∧
    st.offsets.length = st.chunks.length := by
  have hinit : CCInv B (mkCachedFile size B) := by
    refine ⟨by simp [mkCachedFile], by simp [mkCachedFile], ?_⟩
    show B = B.sub (([] : List (List Nat)).map List.length).sum
    cases B <;> simp [Budget.sub]
  rcases ccExec_inv reader B ops (mkCachedFile size B) st hinit h with ⟨h1, h2, h3⟩
  exact ⟨h3, h1, h2⟩

/-- Witness for C9: the budget-10 run of `readerA` ends with
`remaining = 0 = 10 - (5 + 5)`, sorted offsets `[10, 20]`, and two chunks
for two offsets. -/
theorem cachedFile_state_invariant_witness :
    ccExec readerA (mkCachedFile 30 (.fin 10))
        [.seek 10 .set, .read 1, .seek 0 .set, .read 1, .seek 20 .set, .read 1] =
      .ok ⟨30, 21, .fin 0, [10, 20], [[10, 11, 12, 13, 14], [20, 21, 22, 23, 24]],
           3, [10, 0, 20], [0]⟩ ∧
    ((CCState.mk 30 21 (.fin 0) [10, 20] [[10, 11, 12, 13, 14], [20, 21, 22, 23, 24]]
        3 [10, 0, 20] [0]).remaining =
      (Budget.fin 10).sub
        (((CCState.mk 30 21 (.fin 0) [10, 20] [[10, 11, 12, 13, 14], [20, 21, 22, 23, 24]]
            3 [10, 0, 20] [0]).chunks.map List.length).sum) ∧
     (CCState.mk 30 21 (.fin 0) [10, 20] [[10, 11, 12, 13, 14], [20, 21, 22, 23, 24]]
        3 [10, 0, 20] [0]).offsets.Sorted (· ≤ ·) ∧
     (CCState.mk 30 21 (.fin 0) [10, 20] [[10, 11, 12, 13, 14], [20, 21, 22, 23, 24]]
        3 [10, 0, 20] [0]).offsets.length =
      (CCState.mk 30 21 (.fin 0) [10, 20] [[10, 11, 12, 13, 14], [20, 21, 22, 23, 24]]
        3 [10, 0, 20] [0]).chunks.length) :=
  ⟨rfl, cachedFile_state_invariant readerA (.fin 10) 30
    [.seek 10 .set, .read 1, .seek 0 .set, .read 1, .seek 20 .set, .read 1]
    ⟨30, 21, .fin 0, [10, 20], [[10, 11, 12, 13, 14], [20, 21, 22, 23, 24]],
     3, [10, 0, 20], [0]⟩ rfl⟩

end ASRec
